import Mathlib

/-!
Shallow embedding of `src/scripts/migrate-theme.py`, a line-oriented
theme-color migrator.  Lines are modelled as `List Char`.  Digits are
modelled as ASCII digits (`Char.isDigit`), matching the decimal literals
the program is specified to handle.
-/

/-- One lowercase hexadecimal digit character for a value `k < 16`. -/
def toHexChar (k : Nat) : Char :=
  if k < 10 then Char.ofNat ('0'.toNat + k) else Char.ofNat ('a'.toNat + (k - 10))

/-- Fuel-indexed big-endian lowercase hexadecimal rendering of a natural
number; `fuel` bounds the recursion depth and any `fuel > n` is enough. -/
def toHexAux : Nat → Nat → List Char
  | 0, _ => []
  | f + 1, n => if n = 0 then [] else toHexAux f (n / 16) ++ [toHexChar (n % 16)]

/-- Natural hexadecimal rendering (`"0"` for zero), as Python `format(n, "x")`. -/
def natToHex (n : Nat) : List Char :=
  if n = 0 then ['0'] else toHexAux (n + 1) n

/-- Embedding of the inner helper `as_hex` of `migrate_color`: render the
channel value as lowercase hex, zero-padded on the left to width two
(Python `f"{number:02x}"` on a non-negative value). -/
def as_hex (n : Nat) : List Char :=
  List.replicate (2 - (natToHex n).length) '0' ++ natToHex n

/-- Base-10 value of a digit string (the happy path of Python `int`). -/
def decVal (s : List Char) : Nat :=
  s.foldl (fun a c => 10 * a + (c.toNat - '0'.toNat)) 0

/-- Embedding of the call `int(number_str)`: Python `int` succeeds on the
digit strings this program feeds it; it is modelled as succeeding exactly
on non-empty all-digit strings and failing (raising) otherwise. -/
def int? (s : List Char) : Option Nat :=
  if s ≠ [] ∧ s.all Char.isDigit then some (decVal s) else none

/-- Match the tail pattern `"rgb_\((\d+),(\d+),(\d+)\)"` at the head of `s`,
returning the three captured digit groups.  The greedy `[\d]+` followed by a
fixed non-digit character is exactly `takeWhile Char.isDigit` followed by a
check of the next character. -/
def matchRgbAt (s : List Char) : Option (List Char × List Char × List Char) :=
  match s with
  | '"' :: 'r' :: 'g' :: 'b' :: '_' :: '(' :: rest =>
    let d1 := rest.takeWhile Char.isDigit
    let r1 := rest.dropWhile Char.isDigit
    if d1 = [] then none else
    match r1 with
    | ',' :: rest2 =>
      let d2 := rest2.takeWhile Char.isDigit
      let r2 := rest2.dropWhile Char.isDigit
      if d2 = [] then none else
      match r2 with
      | ',' :: rest3 =>
        let d3 := rest3.takeWhile Char.isDigit
        let r3 := rest3.dropWhile Char.isDigit
        if d3 = [] then none else
        match r3 with
        | ')' :: '"' :: _ => some (d1, d2, d3)
        | _ => none
      | _ => none
    | _ => none
  | _ => none

/-- Embedding of `re.match(r'.*"rgb_\(([\d]+),([\d]+),([\d]+)\)"', line)`:
the leading greedy `.*` (which cannot cross a newline) makes the engine
select the rightmost position at which the rest of the pattern matches, so
matches found further right take precedence over a match at the current
position. -/
def reMatch : List Char → Option (List Char × List Char × List Char)
  | [] => none
  | c :: cs =>
    match (if c = '\n' then none else reMatch cs) with
    | some g => some g
    | none => matchRgbAt (c :: cs)

/-- Fuel-indexed left-to-right scan replacing every non-overlapping
occurrence of `pat` by `rep`; any `fuel ≥ s.length` is enough. -/
def replaceAllAux (pat rep : List Char) : Nat → List Char → List Char
  | _, [] => []
  | 0, s => s
  | f + 1, c :: cs =>
    if pat ≠ [] ∧ pat.isPrefixOf (c :: cs) then
      rep ++ replaceAllAux pat rep f ((c :: cs).drop pat.length)
    else
      c :: replaceAllAux pat rep f cs

/-- Embedding of Python `line.replace(old, new)` (no count argument):
replace every non-overlapping occurrence, scanning left to right. -/
def replaceAll (pat rep s : List Char) : List Char :=
  replaceAllAux pat rep s.length s

/-- Embedding of `migrate_color`.  A failing `int` call (unreachable, as
proved below) surfaces as `none`, i.e. an uncaught exception. -/
def migrate_color (line : List Char) : Option (List Char) :=
  match reMatch line with
  | none => some line
  | some (d1, d2, d3) =>
    match int? d1, int? d2, int? d3 with
    | some n1, some n2, some n3 =>
      let hex_color := as_hex n1 ++ as_hex n2 ++ as_hex n3
      let original_color :=
        ['r', 'g', 'b', '_', '('] ++ d1 ++ [','] ++ d2 ++ [','] ++ d3 ++ [')']
      some (replaceAll original_color hex_color line)
    | _, _, _ => none

/-- The ordered list of line-rewrite rules of `migrate`. -/
def migrators : List (List Char → Option (List Char)) := [migrate_color]

/-- Embedding of `migrate`: fold the rule list over the line, each rule
receiving the previous rule's output. -/
def migrate (line : List Char) : Option (List Char) :=
  migrators.foldlM (fun l m => m l) line

/-- Embedding of the `__main__` loop: apply `migrate` to every input line
in order and emit the results; a raised exception on any line aborts the
whole run. -/
def runMain (input : List (List Char)) : Option (List (List Char)) :=
  input.mapM migrate

/-! ### Specification-side definitions and helper lemmas -/

/-- The sixteen lowercase hexadecimal digit characters. -/
def hexAlpha : List Char := "0123456789abcdef".data

/-- Value denoted by one lowercase hexadecimal digit character. -/
def hexCharVal (c : Char) : Nat :=
  if c.isDigit then c.toNat - '0'.toNat else c.toNat - 'a'.toNat + 10

/-- Big-endian value denoted by a string of lowercase hexadecimal digits. -/
def hexVal (s : List Char) : Nat :=
  s.foldl (fun a c => 16 * a + hexCharVal c) 0

theorem hexCharVal_toHexChar {k : Nat} (h : k < 16) :
    hexCharVal (toHexChar k) = k := by
  interval_cases k <;> rfl

theorem toHexChar_mem_hexAlpha {k : Nat} (h : k < 16) :
    toHexChar k ∈ hexAlpha := by
  interval_cases k <;> decide

theorem hexVal_append_singleton (xs : List Char) (x : Char) :
    hexVal (xs ++ [x]) = 16 * hexVal xs + hexCharVal x := by
  simp [hexVal, List.foldl_append]

theorem hexVal_toHexAux {f n : Nat} (h : n < f) :
    hexVal (toHexAux f n) = n := by
  induction f generalizing n with
  | zero => omega
  | succ f ih =>
    by_cases hn : n = 0
    · simp [toHexAux, hn, hexVal]
    · have hdiv : n / 16 < f := by
        have h1 : n / 16 < n := Nat.div_lt_self (Nat.pos_of_ne_zero hn) (by norm_num)
        omega
      rw [toHexAux, if_neg hn, hexVal_append_singleton, ih hdiv,
        hexCharVal_toHexChar (Nat.mod_lt _ (by norm_num))]
      exact Nat.div_add_mod n 16

theorem toHexAux_len_le {f n k : Nat} (hf : n < f) (h : n < 16 ^ k) :
    (toHexAux f n).length ≤ k := by
  induction f generalizing n k with
  | zero => omega
  | succ f ih =>
    by_cases hn : n = 0
    · simp [toHexAux, hn]
    · cases k with
      | zero => simp at h; omega
      | succ k =>
        have hdiv : n / 16 < f := by
          have h1 : n / 16 < n := Nat.div_lt_self (Nat.pos_of_ne_zero hn) (by norm_num)
          omega
        have hlt : n / 16 < 16 ^ k := by
          rw [Nat.div_lt_iff_lt_mul (by norm_num)]
          calc n < 16 ^ (k + 1) := h
          _ = 16 ^ k * 16 := by ring
        have := ih hdiv hlt
        rw [toHexAux, if_neg hn]
        simp only [List.length_append, List.length_singleton]
        omega

theorem lt_pow_of_toHexAux_len_le {f n k : Nat} (hf : n < f)
    (h : (toHexAux f n).length ≤ k) : n < 16 ^ k := by
  induction f generalizing n k with
  | zero => omega
  | succ f ih =>
    by_cases hn : n = 0
    · exact hn ▸ Nat.pos_pow_of_pos k (by norm_num)
    · rw [toHexAux, if_neg hn] at h
      simp only [List.length_append, List.length_singleton] at h
      cases k with
      | zero => omega
      | succ k =>
        have hdiv : n / 16 < f := by
          have h1 : n / 16 < n := Nat.div_lt_self (Nat.pos_of_ne_zero hn) (by norm_num)
          omega
        have hq : n / 16 < 16 ^ k := ih hdiv (by omega)
        have hmod : n % 16 < 16 := Nat.mod_lt _ (by norm_num)
        have hdm := Nat.div_add_mod n 16
        have : 16 ^ (k + 1) = 16 * 16 ^ k := by ring
        omega

theorem mem_toHexAux_hexAlpha {f n : Nat} {c : Char}
    (h : c ∈ toHexAux f n) : c ∈ hexAlpha := by
  induction f generalizing n with
  | zero => simp [toHexAux] at h
  | succ f ih =>
    by_cases hn : n = 0
    · simp [toHexAux, hn] at h
    · rw [toHexAux, if_neg hn] at h
      rcases List.mem_append.mp h with h1 | h1
      · exact ih h1
      · rcases List.mem_singleton.mp h1 with rfl
        exact toHexChar_mem_hexAlpha (Nat.mod_lt _ (by norm_num))

theorem hexVal_replicate_zero_append (m : Nat) (l : List Char) :
    hexVal (List.replicate m '0' ++ l) = hexVal l := by
  induction m with
  | zero => rfl
  | succ m ih =>
    have : List.replicate (m + 1) '0' ++ l = '0' :: (List.replicate m '0' ++ l) := by
      simp [List.replicate_succ]
    rw [this]
    simpa [hexVal, hexCharVal] using ih

theorem hexVal_natToHex (n : Nat) : hexVal (natToHex n) = n := by
  by_cases hn : n = 0
  · simp [natToHex, hn]; rfl
  · rw [natToHex, if_neg hn]
    exact hexVal_toHexAux (Nat.lt_succ_self n)

theorem natToHex_len_le {n : Nat} (h : n < 256) : (natToHex n).length ≤ 2 := by
  by_cases hn : n = 0
  · simp [natToHex, hn]
  · rw [natToHex, if_neg hn]
    exact toHexAux_len_le (Nat.lt_succ_self n) (by norm_num; omega)

theorem natToHex_len_gt {n : Nat} (h : 256 ≤ n) : 2 < (natToHex n).length := by
  have hn : n ≠ 0 := by omega
  rw [natToHex, if_neg hn]
  by_contra hc
  have := lt_pow_of_toHexAux_len_le (f := n + 1) (n := n) (k := 2) (by omega) (by omega)
  norm_num at this
  omega

theorem mem_natToHex_hexAlpha {n : Nat} {c : Char}
    (h : c ∈ natToHex n) : c ∈ hexAlpha := by
  by_cases hn : n = 0
  · rw [natToHex, if_pos hn] at h
    rcases List.mem_singleton.mp h with rfl
    decide
  · rw [natToHex, if_neg hn] at h
    exact mem_toHexAux_hexAlpha h

theorem as_hex_len (n : Nat) : (as_hex n).length = max 2 (natToHex n).length := by
  simp [as_hex]
  omega

theorem hexVal_as_hex (n : Nat) : hexVal (as_hex n) = n := by
  rw [as_hex, hexVal_replicate_zero_append, hexVal_natToHex]

theorem mem_as_hex_hexAlpha {n : Nat} {c : Char}
    (h : c ∈ as_hex n) : c ∈ hexAlpha := by
  rcases List.mem_append.mp h with h1 | h1
  · rcases List.eq_of_mem_replicate h1 with rfl
    decide
  · exact mem_natToHex_hexAlpha h1


theorem takeWhile_all (p : Char → Bool) (l : List Char) :
    ((l.takeWhile p).all p) = true :=
  List.all_eq_true.mpr (fun _ ha => List.mem_takeWhile_imp ha)

theorem matchRgbAt_digits {s d1 d2 d3 : List Char}
    (h : matchRgbAt s = some (d1, d2, d3)) :
    (d1 ≠ [] ∧ d1.all Char.isDigit) ∧ (d2 ≠ [] ∧ d2.all Char.isDigit) ∧
    (d3 ≠ [] ∧ d3.all Char.isDigit) := by
  unfold matchRgbAt at h
  split at h
  · simp only at h
    split at h
    · exact absurd h (by simp)
    · split at h
      · split at h
        · exact absurd h (by simp)
        · split at h
          · split at h
            · exact absurd h (by simp)
            · split at h
              · rw [Option.some.injEq, Prod.mk.injEq, Prod.mk.injEq] at h
                obtain ⟨h1, h2, h3⟩ := h
                subst h1; subst h2; subst h3
                refine ⟨⟨by assumption, takeWhile_all _ _⟩,
                  ⟨by assumption, takeWhile_all _ _⟩,
                  ⟨by assumption, takeWhile_all _ _⟩⟩
              · exact absurd h (by simp)
          · exact absurd h (by simp)
      · exact absurd h (by simp)
  · exact absurd h (by simp)

theorem reMatch_digits {l d1 d2 d3 : List Char}
    (h : reMatch l = some (d1, d2, d3)) :
    (d1 ≠ [] ∧ d1.all Char.isDigit) ∧ (d2 ≠ [] ∧ d2.all Char.isDigit) ∧
    (d3 ≠ [] ∧ d3.all Char.isDigit) := by
  induction l with
  | nil => simp [reMatch] at h
  | cons c cs ih =>
    rw [reMatch] at h
    by_cases hc : c = '\n'
    · rw [if_pos hc] at h
      exact matchRgbAt_digits h
    · rw [if_neg hc] at h
      cases hr : reMatch cs with
      | some g =>
        rw [hr] at h
        simp only [Option.some.injEq] at h
        subst h
        exact ih hr
      | none =>
        rw [hr] at h
        exact matchRgbAt_digits h

theorem reMatch_append {pre suf : List Char} {g : List Char × List Char × List Char}
    (hnl : '\n' ∉ pre) (h : reMatch suf = some g) :
    reMatch (pre ++ suf) = some g := by
  induction pre with
  | nil => simpa using h
  | cons c pre ih =>
    have hc : c ≠ '\n' := fun hc => hnl (hc ▸ List.mem_cons_self c pre)
    have hrec := ih (fun hm => hnl (List.mem_cons_of_mem c hm))
    rw [List.cons_append, reMatch, if_neg hc, hrec]

theorem reMatch_eq_none {l : List Char}
    (h : ∀ i, i < l.length → matchRgbAt (l.drop i) = none) :
    reMatch l = none := by
  induction l with
  | nil => rfl
  | cons c cs ih =>
    have h0 : matchRgbAt (c :: cs) = none := h 0 (by simp)
    have hrec : reMatch cs = none :=
      ih (fun i hi => by simpa using h (i + 1) (by simpa using Nat.succ_lt_succ hi))
    rw [reMatch]
    by_cases hc : c = '\n'
    · subst hc
      simp [h0]
    · simp [hc, hrec, h0]

theorem migrate_eq_migrate_color (l : List Char) : migrate l = migrate_color l := by
  unfold migrate migrators
  cases h : migrate_color l <;> simp [List.foldlM, h]

theorem count_replaceAllAux {pat rep : List Char} {c : Char}
    (hp : c ∉ pat) (hr : c ∉ rep) :
    ∀ f s, s.length ≤ f →
      List.count c (replaceAllAux pat rep f s) = List.count c s := by
  intro f
  induction f with
  | zero =>
    intro s hs
    cases s with
    | nil => rfl
    | cons a as => simp at hs
  | succ f ih =>
    intro s hs
    cases s with
    | nil => rfl
    | cons a as =>
      rw [replaceAllAux]
      split
      · rename_i hcond
        obtain ⟨hne, hpref⟩ := hcond
        obtain ⟨t, ht⟩ := List.isPrefixOf_iff_prefix.mp hpref
        have hdrop : (a :: as).drop pat.length = t := by
          rw [← ht]; exact List.drop_left _ _
        have hlen : t.length ≤ f := by
          have hsum : pat.length + t.length = as.length + 1 := by
            rw [← List.length_append, ht]; simp
          have hp1 : 1 ≤ pat.length := by
            cases pat with
            | nil => exact absurd rfl hne
            | cons _ _ => simp
          simp at hs
          omega
        rw [List.count_append, hdrop, ih t hlen, List.count_eq_zero.mpr hr, ← ht,
          List.count_append, List.count_eq_zero.mpr hp]
      · simp only [List.count_cons]
        have has : as.length ≤ f := by simp at hs; omega
        rw [ih as has]

theorem migrate_color_eq_of_match {l d1 d2 d3 : List Char}
    (h : reMatch l = some (d1, d2, d3)) :
    migrate_color l = some (replaceAll
      (['r', 'g', 'b', '_', '('] ++ d1 ++ [','] ++ d2 ++ [','] ++ d3 ++ [')'])
      (as_hex (decVal d1) ++ as_hex (decVal d2) ++ as_hex (decVal d3)) l) := by
  obtain ⟨⟨h1n, h1d⟩, ⟨h2n, h2d⟩, h3n, h3d⟩ := reMatch_digits h
  unfold migrate_color
  rw [h]
  simp [int?, h1n, h1d, h2n, h2d, h3n, h3d]

theorem migrate_color_eq_of_none {l : List Char} (h : reMatch l = none) :
    migrate_color l = some l := by
  unfold migrate_color
  rw [h]

theorem migrate_isSome (l : List Char) : (migrate l).isSome = true := by
  rw [migrate_eq_migrate_color]
  cases hm : reMatch l with
  | none => rw [migrate_color_eq_of_none hm]; rfl
  | some g =>
    obtain ⟨d1, d2, d3⟩ := g
    rw [migrate_color_eq_of_match hm]
    rfl

theorem count_nl_migrate {l r : List Char} (h : migrate l = some r) :
    List.count '\n' r = List.count '\n' l := by
  rw [migrate_eq_migrate_color] at h
  cases hm : reMatch l with
  | none =>
    rw [migrate_color_eq_of_none hm] at h
    cases h
    rfl
  | some g =>
    obtain ⟨d1, d2, d3⟩ := g
    obtain ⟨⟨h1n, h1d⟩, ⟨h2n, h2d⟩, h3n, h3d⟩ := reMatch_digits hm
    rw [migrate_color_eq_of_match hm] at h
    cases h
    have hpat : '\n' ∉ (['r', 'g', 'b', '_', '('] ++ d1 ++ [','] ++ d2 ++ [','] ++
        d3 ++ [')']) := by
      intro hmem
      simp only [List.mem_append] at hmem
      rcases hmem with ((((((h | h) | h) | h) | h) | h) | h)
      · exact absurd h (by decide)
      · exact absurd (List.all_eq_true.mp h1d _ h) (by decide)
      · exact absurd h (by decide)
      · exact absurd (List.all_eq_true.mp h2d _ h) (by decide)
      · exact absurd h (by decide)
      · exact absurd (List.all_eq_true.mp h3d _ h) (by decide)
      · exact absurd h (by decide)
    have hrep : '\n' ∉ (as_hex (decVal d1) ++ as_hex (decVal d2) ++ as_hex (decVal d3)) := by
      intro hmem
      simp only [List.mem_append] at hmem
      rcases hmem with (h | h) | h <;>
        exact absurd (mem_as_hex_hexAlpha h) (by decide)
    exact count_replaceAllAux hpat hrep l.length l (Nat.le_refl _)

/-! ### Claim theorems -/

/-- Claim C1 is false as stated: in the line `color: "theme_rgb_(0,128,255)"`
the quoted content ends with `rgb_(0,128,255)` after the non-empty prefix
`theme_`, yet the migrator leaves the line unchanged (the regex requires the
double quote directly before `rgb_(`), instead of producing
`color: "theme0080ff"`. -/
theorem C1_counterexample :
    migrate "color: \"theme_rgb_(0,128,255)\"".data
        = some "color: \"theme_rgb_(0,128,255)\"".data
    ∧ "color: \"theme_rgb_(0,128,255)\"".data ≠ "color: \"theme0080ff\"".data := by
  constructor
  · decide
  · decide

/-- Claim C1 (amended): the quoted `rgb_(...)` literal is replaced only when
the double quote stands immediately before `rgb_(`; a quoted string whose
content has the literal as a proper suffix (e.g. prefix `theme_`) does not
match and the line passes through unchanged.  Concretely,
`color: "theme_rgb_(0,128,255)"` is unchanged while `color: "rgb_(0,128,255)"`
becomes `color: "0080ff"`. -/
theorem C1_amended :
    migrate "color: \"theme_rgb_(0,128,255)\"".data
        = some "color: \"theme_rgb_(0,128,255)\"".data
    ∧ migrate "color: \"rgb_(0,128,255)\"".data = some "color: \"0080ff\"".data := by
  constructor
  · decide
  · decide

/-- Claim C2 is false as stated: on the line `"rgb_(1,2,3)" "rgb_(4,5,6)"`
the values used for the replacement come from the second (rightmost) match,
not the first: the output keeps `rgb_(1,2,3)` and rewrites `rgb_(4,5,6)`,
whereas first-match selection would produce `"010203" "rgb_(4,5,6)"`. -/
theorem C2_counterexample :
    migrate "\"rgb_(1,2,3)\" \"rgb_(4,5,6)\"".data
        = some "\"rgb_(1,2,3)\" \"040506\"".data
    ∧ "\"rgb_(1,2,3)\" \"040506\"".data ≠ "\"010203\" \"rgb_(4,5,6)\"".data := by
  constructor
  · decide
  · decide

/-- Claim C2 (amended): the greedy `.*` prefix of the anchored regex makes the
engine select the rightmost match on the line: a match found in any suffix of
the line takes precedence over whatever stands before it (so with several
quoted literals the last one's channel values are captured), as on the line
`"rgb_(1,2,3)" "rgb_(4,5,6)"` where the second literal is rewritten. -/
theorem C2_amended :
    (∀ pre suf g, '\n' ∉ pre → reMatch suf = some g → reMatch (pre ++ suf) = some g)
    ∧ migrate "\"rgb_(1,2,3)\" \"rgb_(4,5,6)\"".data
        = some "\"rgb_(1,2,3)\" \"040506\"".data := by
  constructor
  · exact fun _ _ _ h1 h2 => reMatch_append h1 h2
  · decide

/-- Witness for `C2_amended` at concrete inputs. -/
theorem C2_amended_witness :
    reMatch ("color: ".data ++ "\"rgb_(4,5,6)\"".data)
        = some ("4".data, "5".data, "6".data) :=
  C2_amended.1 "color: ".data "\"rgb_(4,5,6)\"".data _ (by decide) (by decide)

/-- Claim C3 is false as stated: on the line `rgb_(1,2,3) "rgb_(1,2,3)"` the
exact literal text of the selected match occurs twice, and the migrator
replaces both occurrences (Python `str.replace` without a count replaces every
occurrence), not only the first: the output is `010203 "010203"`, whereas the
claim predicts `010203 "rgb_(1,2,3)"`. -/
theorem C3_counterexample :
    migrate "rgb_(1,2,3) \"rgb_(1,2,3)\"".data = some "010203 \"010203\"".data
    ∧ "010203 \"010203\"".data ≠ "010203 \"rgb_(1,2,3)\"".data := by
  constructor
  · decide
  · decide

/-- Claim C3 (amended): every textual occurrence of the selected match's exact
literal `rgb_(<d1>,<d2>,<d3>)` in the line is replaced by the hex string, not
only the first one: `rgb_(7,8,9) rgb_(7,8,9) "rgb_(7,8,9)"` has all three
occurrences rewritten, and the spec's own example line
`"rgb_(1,2,3)" "rgb_(1,2,3)"` has both rewritten. -/
theorem C3_amended :
    migrate "rgb_(7,8,9) rgb_(7,8,9) \"rgb_(7,8,9)\"".data
        = some "070809 070809 \"070809\"".data
    ∧ migrate "\"rgb_(1,2,3)\" \"rgb_(1,2,3)\"".data
        = some "\"010203\" \"010203\"".data := by
  constructor
  · decide
  · decide

/-- Claim C4: each captured channel digit-string is parsed as a base-10
integer and rendered in lowercase hexadecimal, left-padded with zeros to a
minimum width of exactly two digits: the rendering consists of lowercase hex
digit characters, denotes the parsed value, has width exactly two for values
below 256, and for values at or above 256 has the natural (unclamped,
unvalidated) width of more than two digits. -/
theorem C4_channel_rendering (d : List Char) (n : Nat) (h : int? d = some n) :
    n = decVal d
    ∧ hexVal (as_hex n) = n
    ∧ (∀ c ∈ as_hex n, c ∈ hexAlpha)
    ∧ 2 ≤ (as_hex n).length
    ∧ (n < 256 → (as_hex n).length = 2)
    ∧ (256 ≤ n → (as_hex n).length = (natToHex n).length ∧ 2 < (as_hex n).length) := by
  have hn : n = decVal d := by
    rw [int?] at h
    split at h
    · exact (Option.some.inj h).symm
    · exact absurd h (by simp)
  refine ⟨hn, hexVal_as_hex n, fun c hc => mem_as_hex_hexAlpha hc, ?_, ?_, ?_⟩
  · rw [as_hex_len]; omega
  · intro hlt
    rw [as_hex_len]
    have := natToHex_len_le hlt
    omega
  · intro hge
    have := natToHex_len_gt hge
    rw [as_hex_len]
    omega

/-- Witness for `C4_channel_rendering` at the digit string `"300"`. -/
theorem C4_channel_rendering_witness :
    hexVal (as_hex 300) = 300 ∧ 2 < (as_hex 300).length ∧ (as_hex 5).length = 2 :=
  ⟨(C4_channel_rendering "300".data 300 (by decide)).2.1,
    ((C4_channel_rendering "300".data 300 (by decide)).2.2.2.2.2 (by norm_num)).2,
    (C4_channel_rendering "5".data 5 (by decide)).2.2.2.2.1 (by norm_num)⟩

/-- Claim C5: a line in which the quoted `rgb_(d1,d2,d3)` pattern occurs at no
position is returned unchanged by the migrator. -/
theorem C5_no_match_identity (l : List Char)
    (h : ∀ i, i < l.length → matchRgbAt (l.drop i) = none) :
    migrate l = some l := by
  rw [migrate_eq_migrate_color, migrate_color_eq_of_none (reMatch_eq_none h)]

/-- Witness for `C5_no_match_identity` on the spec's concrete line. -/
theorem C5_no_match_identity_witness :
    migrate "plain text, no match".data = some "plain text, no match".data :=
  C5_no_match_identity "plain text, no match".data (by decide)

/-- Claim C6: the migrator maps `name: "rgb_(255,255,255)"` to
`name: "ffffff"` and `"rgb_(5,10,15)"` to `"050a0f"`. -/
theorem C6_concrete_cases :
    migrate "name: \"rgb_(255,255,255)\"".data = some "name: \"ffffff\"".data
    ∧ migrate "\"rgb_(5,10,15)\"".data = some "\"050a0f\"".data := by
  constructor
  · decide
  · decide

/-- Claim C7: if the output of the migrator on a line contains no remaining
quoted `rgb_(...)` pattern at any position, then a second application of the
migrator leaves that output unchanged (idempotence on migrated lines). -/
theorem C7_idempotent (l r : List Char) (_hlr : migrate l = some r)
    (h : ∀ i, i < r.length → matchRgbAt (r.drop i) = none) :
    migrate r = some r := by
  rw [migrate_eq_migrate_color, migrate_color_eq_of_none (reMatch_eq_none h)]

/-- Witness for `C7_idempotent` on a concrete migrated line. -/
theorem C7_idempotent_witness :
    migrate "name: \"ffffff\"".data = some "name: \"ffffff\"".data :=
  C7_idempotent "name: \"rgb_(255,255,255)\"".data "name: \"ffffff\"".data
    (by decide) (by decide)

/-- Claim C8: a successful run of the main loop writes exactly one output
line per input line (the output list has the length of the input list), and
the per-line transformation never inserts or removes newline characters
(each output line has the newline count of its input line). -/
theorem C8_line_count (input output : List (List Char))
    (h : runMain input = some output) :
    output.length = input.length
    ∧ ∀ p ∈ output.zip input, List.count '\n' p.1 = List.count '\n' p.2 := by
  induction input generalizing output with
  | nil =>
    rw [runMain, List.mapM_nil] at h
    cases h
    exact ⟨rfl, by simp⟩
  | cons l ls ih =>
    rw [runMain, List.mapM_cons] at h
    cases hm : migrate l with
    | none => rw [hm] at h; simp at h
    | some r =>
      rw [hm] at h
      cases hms : ls.mapM migrate with
      | none => rw [hms] at h; simp at h
      | some rs =>
        rw [hms] at h
        simp only [Option.bind_eq_bind, Option.some_bind, Option.pure_def,
          Option.some.injEq] at h
        subst h
        have hrec := ih rs hms
        refine ⟨by simp [hrec.1], ?_⟩
        intro p hp
        rw [List.zip_cons_cons] at hp
        rcases List.mem_cons.mp hp with rfl | hp
        · exact count_nl_migrate hm
        · exact hrec.2 p hp

/-- Witness for `C8_line_count` on a concrete two-line input stream. -/
theorem C8_line_count_witness :
    (["name: \"ffffff\"\n".data, "plain\n".data] : List (List Char)).length
      = (["name: \"rgb_(255,255,255)\"\n".data, "plain\n".data] :
          List (List Char)).length :=
  (C8_line_count ["name: \"rgb_(255,255,255)\"\n".data, "plain\n".data]
    ["name: \"ffffff\"\n".data, "plain\n".data] (by decide)).1

/-- Claim C9: the top-level migrator folds an ordered list of line-rewrite
rules over the line, each rule receiving the previous rule's output; the list
holds exactly the one color rule, so `migrate` agrees with `migrate_color` on
every line. -/
theorem C9_single_rule :
    migrators = [migrate_color] ∧ ∀ l, migrate l = migrate_color l :=
  ⟨rfl, migrate_eq_migrate_color⟩

/-- Claim C10: the migrator is total: on every line it returns a result (no
exception path is reachable), because the three capture groups of a
successful regex match are always non-empty all-digit strings, on which the
base-10 integer parse always succeeds. -/
theorem C10_total :
    ∀ l, (migrate l).isSome = true
    ∧ ∀ d1 d2 d3, reMatch l = some (d1, d2, d3) →
        (int? d1).isSome = true ∧ (int? d2).isSome = true ∧ (int? d3).isSome = true := by
  intro l
  refine ⟨migrate_isSome l, ?_⟩
  intro d1 d2 d3 h
  obtain ⟨⟨h1n, h1d⟩, ⟨h2n, h2d⟩, h3n, h3d⟩ := reMatch_digits h
  refine ⟨?_, ?_, ?_⟩ <;> simp [int?, h1n, h1d, h2n, h2d, h3n, h3d]

/-- Witness for `C10_total` at a concrete matching line. -/
theorem C10_total_witness :
    (migrate "\"rgb_(5,10,15)\"".data).isSome = true
    ∧ (int? "5".data).isSome = true :=
  ⟨(C10_total "\"rgb_(5,10,15)\"".data).1,
    ((C10_total "\"rgb_(5,10,15)\"".data).2 "5".data "10".data "15".data
      (by decide)).1⟩
